import Mathlib

/-!
Verification of the deterministic decision core of the idea-vet pipeline:
the evidence consolidator (`dedupeEvidence`, `getCredibility`, URL/quote
normalisation) and the decision engine (`computeEvidenceStrength`,
`computeTotal`, `applyKillRules`, `clampScore`).

The TypeScript sources are embedded shallowly: each Lean definition
translates one function from `src/pipeline/scoring.ts`,
`src/pipeline/dedupe.ts` (the unnamed consolidator module) or
`src/pipeline/run.ts`.  JavaScript runtime primitives used by those
functions (the WHATWG `URL` constructor, `Map`/`Set` insertion-order
semantics, `Math.round/min/max` on IEEE numbers, ASCII case folding)
are modelled explicitly below, next to their first use.
-/

namespace IdeaVet

/-- The pipeline decision values: `"GO" | "NO_GO" | "UNCLEAR"`. -/
inductive Decision where
  | GO
  | NO_GO
  | UNCLEAR
deriving DecidableEq, Repr

/-- Wedge option record (`analyst.zod.ts`); `applyKillRules` only uses the
count of these. -/
structure WedgeOption where
  wedge : String
  whyWorks : String
  mvp : String
deriving DecidableEq, Repr

/-- The rubric argument of `applyKillRules` (`Omit<Rubric, "total" |
"decision" | "reasons">` from `scoring.ts`): the 8 score dimensions. -/
structure RubricIn where
  painIntensity : Int
  frequency : Int
  buyerClarity : Int
  budgetSignal : Int
  switchingCost : Int
  competition : Int
  distributionFeasibility : Int
  evidenceStrength : Int
deriving DecidableEq, Repr

/-- `KillRuleResult` from `scoring.ts`. -/
structure KillRuleResult where
  decision : Decision
  overridden : Bool
  overrideReasons : List String
deriving DecidableEq, Repr

/-- Reason string pushed by kill rule 1 in `applyKillRules`. -/
def killReason1 : String :=
  "Kill rule: evidenceStrength <= 1 — insufficient evidence to proceed."

/-- Reason string pushed by kill rule 2 in `applyKillRules`. -/
def killReason2 : String :=
  "Kill rule: distributionFeasibility <= 1 — no clear way to reach buyers."

/-- Reason string pushed by kill rule 3 in `applyKillRules`. -/
def killReason3 : String :=
  "Kill rule: competition <= 1 with no wedge options — market is saturated with no differentiation path."

/-- Reason string used by kill rule 4 in `applyKillRules`. -/
def killReason4 : String :=
  "Kill rule: buyerClarity <= 1 with insufficient evidence — cannot determine buyer."

/-- `applyKillRules` from `scoring.ts` (lines 70–118).  The three `if`
blocks that push onto the `reasons` array are rendered as an append of
three conditional singleton lists, which builds the same list in the same
order. -/
def applyKillRules (rubric : RubricIn) (wedgeOptions : List WedgeOption)
    (evidenceCount : Int) (originalDecision : Decision) : KillRuleResult :=
  let reasons : List String :=
    (if rubric.evidenceStrength ≤ 1 then [killReason1] else []) ++
    (if rubric.distributionFeasibility ≤ 1 then [killReason2] else []) ++
    (if rubric.competition ≤ 1 ∧ wedgeOptions.length = 0 then [killReason3] else [])
  let unclearRule : Prop := rubric.buyerClarity ≤ 1 ∧ evidenceCount < 10
  if reasons.length > 0 then
    { decision := Decision.NO_GO,
      overridden := decide (originalDecision ≠ Decision.NO_GO),
      overrideReasons := reasons }
  else if unclearRule then
    { decision := Decision.UNCLEAR,
      overridden := decide (originalDecision ≠ Decision.UNCLEAR ∧ originalDecision ≠ Decision.NO_GO),
      overrideReasons := [killReason4] }
  else
    { decision := originalDecision,
      overridden := false,
      overrideReasons := [] }

/-- C1: whenever one of kill rules 1–3 fires, `applyKillRules` returns
`NO_GO`; `overridden` is true exactly when the suggested decision was not
`NO_GO`; the reason list holds exactly one reason per fired rule (each
fired rule's reason present, nothing else, so rule 4's reason never
appears and the `UNCLEAR` branch is not taken). -/
theorem applyKillRules_kill_rules_force_no_go
    (rubric : RubricIn) (wedgeOptions : List WedgeOption)
    (evidenceCount : Int) (originalDecision : Decision)
    (h : rubric.evidenceStrength ≤ 1 ∨ rubric.distributionFeasibility ≤ 1 ∨
         (rubric.competition ≤ 1 ∧ wedgeOptions.length = 0)) :
    (applyKillRules rubric wedgeOptions evidenceCount originalDecision).decision
        = Decision.NO_GO ∧
    ((applyKillRules rubric wedgeOptions evidenceCount originalDecision).overridden = true ↔
        originalDecision ≠ Decision.NO_GO) ∧
    (killReason1 ∈ (applyKillRules rubric wedgeOptions evidenceCount originalDecision).overrideReasons ↔
        rubric.evidenceStrength ≤ 1) ∧
    (killReason2 ∈ (applyKillRules rubric wedgeOptions evidenceCount originalDecision).overrideReasons ↔
        rubric.distributionFeasibility ≤ 1) ∧
    (killReason3 ∈ (applyKillRules rubric wedgeOptions evidenceCount originalDecision).overrideReasons ↔
        (rubric.competition ≤ 1 ∧ wedgeOptions.length = 0)) ∧
    killReason4 ∉ (applyKillRules rubric wedgeOptions evidenceCount originalDecision).overrideReasons ∧
    (applyKillRules rubric wedgeOptions evidenceCount originalDecision).overrideReasons.length =
      (if rubric.evidenceStrength ≤ 1 then 1 else 0) +
      (if rubric.distributionFeasibility ≤ 1 then 1 else 0) +
      (if rubric.competition ≤ 1 ∧ wedgeOptions.length = 0 then 1 else 0) := by
  have d12 : killReason1 ≠ killReason2 := by decide
  have d13 : killReason1 ≠ killReason3 := by decide
  have d23 : killReason2 ≠ killReason3 := by decide
  have d41 : killReason4 ≠ killReason1 := by decide
  have d42 : killReason4 ≠ killReason2 := by decide
  have d43 : killReason4 ≠ killReason3 := by decide
  by_cases h1 : rubric.evidenceStrength ≤ 1 <;>
    by_cases h2 : rubric.distributionFeasibility ≤ 1 <;>
      by_cases h3 : rubric.competition ≤ 1 ∧ wedgeOptions.length = 0 <;>
        simp_all [applyKillRules, d12, d13, d23, d41, d42, d43,
          d12.symm, d13.symm, d23.symm] <;>
        split_ifs <;> simp_all

/-- Witness for C1: concrete run with `evidenceStrength = 0` and
`buyerClarity = 0`, `evidenceCount = 5` (rule 4's trigger also holds):
still `NO_GO` with only rule 1's reason. -/
theorem applyKillRules_kill_rules_force_no_go_witness :
    (applyKillRules ⟨3, 3, 0, 3, 3, 3, 3, 0⟩ [] 5 Decision.GO).decision
        = Decision.NO_GO ∧
    ((applyKillRules ⟨3, 3, 0, 3, 3, 3, 3, 0⟩ [] 5 Decision.GO).overridden = true ↔
        Decision.GO ≠ Decision.NO_GO) ∧
    (killReason1 ∈ (applyKillRules ⟨3, 3, 0, 3, 3, 3, 3, 0⟩ [] 5 Decision.GO).overrideReasons ↔
        (⟨3, 3, 0, 3, 3, 3, 3, 0⟩ : RubricIn).evidenceStrength ≤ 1) ∧
    (killReason2 ∈ (applyKillRules ⟨3, 3, 0, 3, 3, 3, 3, 0⟩ [] 5 Decision.GO).overrideReasons ↔
        (⟨3, 3, 0, 3, 3, 3, 3, 0⟩ : RubricIn).distributionFeasibility ≤ 1) ∧
    (killReason3 ∈ (applyKillRules ⟨3, 3, 0, 3, 3, 3, 3, 0⟩ [] 5 Decision.GO).overrideReasons ↔
        ((⟨3, 3, 0, 3, 3, 3, 3, 0⟩ : RubricIn).competition ≤ 1 ∧ ([] : List WedgeOption).length = 0)) ∧
    killReason4 ∉ (applyKillRules ⟨3, 3, 0, 3, 3, 3, 3, 0⟩ [] 5 Decision.GO).overrideReasons ∧
    (applyKillRules ⟨3, 3, 0, 3, 3, 3, 3, 0⟩ [] 5 Decision.GO).overrideReasons.length =
      (if (⟨3, 3, 0, 3, 3, 3, 3, 0⟩ : RubricIn).evidenceStrength ≤ 1 then 1 else 0) +
      (if (⟨3, 3, 0, 3, 3, 3, 3, 0⟩ : RubricIn).distributionFeasibility ≤ 1 then 1 else 0) +
      (if (⟨3, 3, 0, 3, 3, 3, 3, 0⟩ : RubricIn).competition ≤ 1 ∧ ([] : List WedgeOption).length = 0 then 1 else 0) :=
  applyKillRules_kill_rules_force_no_go ⟨3, 3, 0, 3, 3, 3, 3, 0⟩ [] 5 Decision.GO
    (Or.inl (by norm_num))

/-- C2: when no kill rule among 1–3 fires, `applyKillRules` either forces
`UNCLEAR` (rule 4: `buyerClarity ≤ 1` and `evidenceCount < 10`) with
exactly one reason and `overridden` true iff the suggestion was neither
`UNCLEAR` nor `NO_GO`, or passes the suggested decision through unchanged
with `overridden = false` and no reasons. -/
theorem applyKillRules_no_kill_rule_fires
    (rubric : RubricIn) (wedgeOptions : List WedgeOption)
    (evidenceCount : Int) (originalDecision : Decision)
    (h1 : ¬ rubric.evidenceStrength ≤ 1)
    (h2 : ¬ rubric.distributionFeasibility ≤ 1)
    (h3 : ¬ (rubric.competition ≤ 1 ∧ wedgeOptions.length = 0)) :
    (rubric.buyerClarity ≤ 1 ∧ evidenceCount < 10 →
      applyKillRules rubric wedgeOptions evidenceCount originalDecision =
        ⟨Decision.UNCLEAR,
         decide (originalDecision ≠ Decision.UNCLEAR ∧ originalDecision ≠ Decision.NO_GO),
         [killReason4]⟩) ∧
    (¬ (rubric.buyerClarity ≤ 1 ∧ evidenceCount < 10) →
      applyKillRules rubric wedgeOptions evidenceCount originalDecision =
        ⟨originalDecision, false, []⟩) := by
  by_cases h4 : rubric.buyerClarity ≤ 1 ∧ evidenceCount < 10 <;>
    simp_all [applyKillRules] <;> split_ifs <;> simp_all <;> omega

/-- Witness for C2: suggested `NO_GO` with `buyerClarity = 0` and 5
pieces of evidence is rewritten to `UNCLEAR` with `overridden = false`. -/
theorem applyKillRules_no_kill_rule_fires_witness :
    ((⟨3, 3, 0, 3, 3, 3, 3, 3⟩ : RubricIn).buyerClarity ≤ 1 ∧ (5 : Int) < 10 →
      applyKillRules ⟨3, 3, 0, 3, 3, 3, 3, 3⟩ [] 5 Decision.NO_GO =
        ⟨Decision.UNCLEAR,
         decide (Decision.NO_GO ≠ Decision.UNCLEAR ∧ Decision.NO_GO ≠ Decision.NO_GO),
         [killReason4]⟩) ∧
    (¬ ((⟨3, 3, 0, 3, 3, 3, 3, 3⟩ : RubricIn).buyerClarity ≤ 1 ∧ (5 : Int) < 10) →
      applyKillRules ⟨3, 3, 0, 3, 3, 3, 3, 3⟩ [] 5 Decision.NO_GO =
        ⟨Decision.NO_GO, false, []⟩) :=
  applyKillRules_no_kill_rule_fires ⟨3, 3, 0, 3, 3, 3, 3, 3⟩ [] 5 Decision.NO_GO
    (by norm_num) (by norm_num) (by norm_num)

/-! ### JavaScript runtime model: URL parsing and string helpers

The consolidator relies on the WHATWG `URL` constructor and a few string
methods.  They are modelled here for the ASCII `scheme://host/path?query#fragment`
URL shapes this repository handles (the case folding is the ASCII one; the
model treats a URL as parseable when it has a syntactically valid scheme,
`://`, and a nonempty host, and splits off pathname, query and fragment as
the WHATWG parser does on such inputs). -/

/-- Result of parsing a URL: scheme (with trailing colon, lower-cased),
host (lower-cased) and pathname (`"/"`-led, `"/"` when absent), the
components `normalizeUrl`, `getDomain` and `getCredibility` read. -/
structure URLParts where
  protocol : String
  hostname : String
  pathname : String
deriving DecidableEq, Repr

/-- Character-wise ASCII lower-casing (`.toLowerCase()` on the ASCII
strings handled here). -/
def lowerChars (l : List Char) : List Char := l.map Char.toLower

/-- Split a character list at the first occurrence of `sep`, returning
the parts before and after it. -/
def splitFirstOn (sep : List Char) : List Char → Option (List Char × List Char)
  | [] => if sep.isEmpty then some ([], []) else none
  | c :: rest =>
    if sep.isPrefixOf (c :: rest) then some ([], (c :: rest).drop sep.length)
    else
      match splitFirstOn sep rest with
      | some (a, b) => some (c :: a, b)
      | none => none

/-- A scheme is an ASCII letter followed by letters, digits, `+`, `-`, `.`. -/
def validScheme (s : List Char) : Bool :=
  match s with
  | [] => false
  | c :: cs => c.isAlpha && cs.all (fun d => d.isAlphanum || d == '+' || d == '-' || d == '.')

/-- Model of `new URL(url)` restricted to `scheme://...` inputs: splits at
the first `://`, reads the host up to the first `/`, `?` or `#`, the
pathname up to the first `?` or `#`, and fails (returns `none`, modelling
the thrown `TypeError`) when the scheme is invalid or the host is empty. -/
def parseURL (url : String) : Option URLParts :=
  match splitFirstOn [':', '/', '/'] url.data with
  | none => none
  | some (schemeChars, afterChars) =>
    if validScheme schemeChars then
      let hostChars := afterChars.takeWhile (fun c => c != '/' && c != '?' && c != '#')
      let pathChars := (afterChars.drop hostChars.length).takeWhile (fun c => c != '?' && c != '#')
      if hostChars.isEmpty then none
      else
        some ⟨String.mk (lowerChars schemeChars ++ [':']),
              String.mk (lowerChars hostChars),
              String.mk (if pathChars.isEmpty then ['/'] else pathChars)⟩
    else none

/-- `.replace(/\/+$/, "")`: drop every trailing `/`. -/
def stripTrailing (l : List Char) : List Char :=
  (l.reverse.dropWhile (fun c => c == '/')).reverse

/-- `.replace(/\/+$/, "")` on a string. -/
def stripTrailingSlashes (s : String) : String :=
  String.mk (stripTrailing s.data)

/-- `.replace(/^www\./, "")`: drop one leading `www.`. -/
def stripWww (s : String) : String :=
  if ['w', 'w', 'w', '.'].isPrefixOf s.data then String.mk (s.data.drop 4) else s

/-- `getDomain` from the consolidator module: hostname with a leading
`www.` stripped, or the raw string when the URL does not parse. -/
def getDomain (url : String) : String :=
  match parseURL url with
  | some u => stripWww u.hostname
  | none => url

/-- `normalizeUrl` from the consolidator module: on a parsed URL, rebuild
`protocol//hostname pathname` (dropping query and fragment), strip
trailing slashes, lower-case; on parse failure, lower-case the raw string
and strip trailing slashes. -/
def normalizeUrl (url : String) : String :=
  match parseURL url with
  | some u =>
    String.mk (lowerChars (stripTrailing
      (u.protocol.data ++ ['/', '/'] ++ u.hostname.data ++ u.pathname.data)))
  | none => String.mk (stripTrailing (lowerChars url.data))

/-- `.replace(/\s+/g, " ")`: collapse each whitespace run to one space. -/
def collapseWs : List Char → List Char
  | [] => []
  | c :: rest =>
    let tail := collapseWs rest
    if c.isWhitespace then
      match tail with
      | ' ' :: _ => tail
      | _ => ' ' :: tail
    else c :: tail

/-- `.trim()`: drop leading and trailing whitespace. -/
def jsTrim (s : List Char) : List Char :=
  ((s.dropWhile Char.isWhitespace).reverse.dropWhile Char.isWhitespace).reverse

/-- `normalizeQuote` from the consolidator module: lower-case, collapse
whitespace runs to single spaces, trim. -/
def normalizeQuote (quote : String) : String :=
  String.mk (jsTrim (collapseWs (lowerChars quote.data)))

/-! ### Credibility tiers and listicle patterns -/

/-- `CREDIBILITY_TIERS` from the consolidator module.  All values are
nonzero, so the JS truthiness test `if (CREDIBILITY_TIERS[h])` is a plain
presence test, modelled by association-list lookup. -/
def CREDIBILITY_TIERS : List (String × Int) :=
  [("g2.com", 5), ("capterra.com", 5), ("trustpilot.com", 5), ("gartner.com", 5),
   ("forrester.com", 5), ("trustradius.com", 5), ("getapp.com", 5),
   ("reddit.com", 4), ("news.ycombinator.com", 4), ("stackoverflow.com", 4),
   ("producthunt.com", 4), ("indiehackers.com", 4), ("quora.com", 4), ("slashdot.org", 4),
   ("techcrunch.com", 3), ("theverge.com", 3), ("arstechnica.com", 3), ("wired.com", 3),
   ("zdnet.com", 3), ("venturebeat.com", 3), ("bloomberg.com", 3), ("forbes.com", 3),
   ("hbr.org", 3)]

/-- `.split(".")`: split a character list at every dot (JS `String.prototype.split`
on a one-character separator; an empty input yields `[""]`). -/
def splitDot : List Char → List (List Char)
  | [] => [[]]
  | c :: rest =>
    match splitDot rest with
    | [] => [[c]]
    | h :: t => if c = '.' then [] :: h :: t else (c :: h) :: t

/-- `.join(".")`. -/
def joinDot : List (List Char) → List Char
  | [] => []
  | [l] => l
  | l :: ls => l ++ '.' :: joinDot ls

/-- Lookup in the tier table. -/
def tierLookup (host : String) : Option Int :=
  match CREDIBILITY_TIERS.find? (fun p => p.1 = host) with
  | some p => some p.2
  | none => none

/-- `[-_]` character class. -/
def isDashChar (c : Char) : Bool := c == '-' || c == '_'

/-- JS regex line terminators, which `.` does not match. -/
def isRegexNewline (c : Char) : Bool :=
  c == '\n' || c == '\r' || c.toNat = 0x2028 || c.toNat = 0x2029

/-- Matcher for the regex fragment `[-_].*[-_]closing` starting after the
first `[-_]` has been consumed... more precisely: at each position either
match `[-_]` immediately followed by the literal `closing`, or let `.`
consume one non-newline character and continue. -/
def dashDotDash (closing : List Char) : List Char → Bool
  | [] => false
  | c :: rest =>
    (isDashChar c && closing.isPrefixOf rest) ||
    (!isRegexNewline c && dashDotDash closing rest)

/-- `/\/best[-_].*[-_]tools/` anchored at the current position. -/
def listicle1At : List Char → Bool
  | '/' :: 'b' :: 'e' :: 's' :: 't' :: c :: rest =>
    isDashChar c && dashDotDash "tools".toList rest
  | _ => false

/-- `/\/top[-_]?\d+/` anchored at the current position. -/
def listicle2At : List Char → Bool
  | '/' :: 't' :: 'o' :: 'p' :: c :: rest =>
    c.isDigit ||
    (isDashChar c && (match rest with | d :: _ => d.isDigit | [] => false))
  | _ => false

/-- After the first digit of `/\/\d+[-_]best/`: consume more digits, then
`[-_]` followed by `best`. -/
def digitsThenBest : List Char → Bool
  | [] => false
  | c :: rest =>
    (isDashChar c && "best".toList.isPrefixOf rest) ||
    (c.isDigit && digitsThenBest rest)

/-- `/\/\d+[-_]best/` anchored at the current position. -/
def listicle3At : List Char → Bool
  | '/' :: c :: rest => c.isDigit && digitsThenBest rest
  | _ => false

/-- `/best[-_].*[-_]software/` anchored at the current position. -/
def listicle4At : List Char → Bool
  | 'b' :: 'e' :: 's' :: 't' :: c :: rest =>
    isDashChar c && dashDotDash "software".toList rest
  | _ => false

/-- `regex.test(s)`: the anchored matcher succeeds at some position. -/
def anyPos (p : List Char → Bool) : List Char → Bool
  | [] => p []
  | c :: rest => p (c :: rest) || anyPos p rest

/-- `LISTICLE_PATTERNS.some((p) => p.test(url))`; the `/i` flag is
modelled by matching the lower-cased URL against the lower-case literals. -/
def listicleMatch (url : String) : Bool :=
  let l := lowerChars url.data
  anyPos listicle1At l || anyPos listicle2At l ||
  anyPos listicle3At l || anyPos listicle4At l

/-- `getCredibility` from the consolidator module (lines 49–79): exact
tier-table hit on the `www.`-stripped hostname, then parent-domain hit
when the hostname has more than two labels, then listicle patterns → 1,
else default 2; parse failure → 2. -/
def getCredibility (url : String) : Int :=
  match parseURL url with
  | none => 2
  | some u =>
    let hostname := stripWww u.hostname
    match tierLookup hostname with
    | some t => t
    | none =>
      let parts := splitDot hostname.data
      let parentTier : Option Int :=
        if parts.length > 2 then
          tierLookup (String.mk (joinDot (parts.drop (parts.length - 2))))
        else none
      match parentTier with
      | some t => t
      | none => if listicleMatch url then 1 else 2

/-! ### Evidence records and the consolidator -/

/-- `EvidenceItem` from `scout.zod.ts`. -/
structure EvidenceItem where
  url : String
  sourceType : String
  quote : String
  theme : String
  sentiment : String
  credibility : Int
  complaints : List String
  gaps : List String
deriving DecidableEq, Repr

/-- `HIGH_CREDIBILITY_DOMAINS` from `scoring.ts`. -/
def HIGH_CREDIBILITY_DOMAINS : List String :=
  ["g2.com", "capterra.com", "trustpilot.com", "gartner.com",
   "forrester.com", "trustradius.com", "getapp.com",
   "reddit.com", "news.ycombinator.com", "stackoverflow.com",
   "producthunt.com", "indiehackers.com"]

/-- `computeEvidenceStrength` from `scoring.ts` (lines 13–39).  The
JavaScript number division `lowCredCount / count` and the literal `0.4`
are modelled in `ℚ`; for the list lengths realisable here the IEEE
comparison agrees with the exact rational one (`0.4` and `l / c` are both
rounded to nearest, and `l / c − 2/5` is either `0` or at least `1/(5c)`
in magnitude, far above the rounding error). -/
def computeEvidenceStrength (evidence : List EvidenceItem) : Int :=
  let count := evidence.length
  let uniqueDomains := ((evidence.map (fun e => getDomain e.url)).dedup).length
  let reviewSources := evidence.filter (fun e => HIGH_CREDIBILITY_DOMAINS.contains (getDomain e.url))
  let lowCredCount := (evidence.filter (fun e => e.credibility ≤ 1)).length
  let lowCredRatio : ℚ := if count > 0 then (lowCredCount : ℚ) / (count : ℚ) else 0
  let score0 : Int := min 5 ((count : Int) / 6)
  let score1 := if uniqueDomains ≥ 5 then score0 + 1 else score0
  let score2 := if reviewSources.length ≥ 2 then score1 + 1 else score1
  let score3 := if lowCredRatio > (0.4 : ℚ) then score2 - 1 else score2
  let score4 := if count < 10 then score3 - 1 else score3
  max 0 (min 5 score4)

/-- The 7 externally supplied dimensions (`RubricScores` in `scoring.ts`). -/
structure RubricScores where
  painIntensity : Int
  frequency : Int
  buyerClarity : Int
  budgetSignal : Int
  switchingCost : Int
  competition : Int
  distributionFeasibility : Int
deriving DecidableEq, Repr

/-- `computeTotal` from `scoring.ts` (lines 51–62). -/
def computeTotal (scores : RubricScores) (evidenceStrength : Int) : Int :=
  scores.painIntensity +
  scores.frequency +
  scores.buyerClarity +
  scores.budgetSignal +
  scores.switchingCost +
  scores.competition +
  scores.distributionFeasibility +
  evidenceStrength

/-- Association-list model of the insertion-ordered JS `Map`: `set` on a
present key replaces the value in place, `set` on an absent key appends. -/
def assocSet (m : List (String × EvidenceItem)) (k : String) (v : EvidenceItem) :
    List (String × EvidenceItem) :=
  match m with
  | [] => [(k, v)]
  | (k', v') :: rest => if k' = k then (k, v) :: rest else (k', v') :: assocSet rest k v

/-- `Map.get` on the association-list model. -/
def assocGet (m : List (String × EvidenceItem)) (k : String) : Option EvidenceItem :=
  match m with
  | [] => none
  | (k', v') :: rest => if k' = k then some v' else assocGet rest k

/-- The loop state of `dedupeEvidence`: the insertion-ordered `seen` map,
the `seenQuotes` set (a list suffices: only membership and insertion are
used) and the running `removedCount`. -/
structure DedupeState where
  seen : List (String × EvidenceItem)
  seenQuotes : List String
  removedCount : Nat
deriving DecidableEq, Repr

/-- One iteration of the `for` loop in `dedupeEvidence` (lines 113–135):
drop quote duplicates; on a URL collision, replace the kept record when
the new one has strictly higher credibility or a strictly longer quote
(counting the collision as removed either way); otherwise keep the record
and register its normalized URL and quote. -/
def dedupeStep (st : DedupeState) (item : EvidenceItem) : DedupeState :=
  let normUrl := normalizeUrl item.url
  let normQuote := normalizeQuote item.quote
  if normQuote ∈ st.seenQuotes then
    { st with removedCount := st.removedCount + 1 }
  else
    match assocGet st.seen normUrl with
    | some existing =>
      if item.credibility > existing.credibility ∨ item.quote.length > existing.quote.length then
        { st with seen := assocSet st.seen normUrl item,
                  removedCount := st.removedCount + 1 }
      else
        { st with removedCount := st.removedCount + 1 }
    | none =>
      { seen := assocSet st.seen normUrl item,
        seenQuotes := st.seenQuotes ++ [normQuote],
        removedCount := st.removedCount }

/-- `DedupeResult` from the consolidator module. -/
structure DedupeResult where
  evidence : List EvidenceItem
  uniqueDomains : Nat
  removedCount : Nat
deriving DecidableEq, Repr

/-- `dedupeEvidence` from the consolidator module (lines 108–152): run
the loop, take the kept records in insertion order, overwrite each
record's credibility from its domain, and count distinct domains. -/
def dedupeEvidence (evidence : List EvidenceItem) : DedupeResult :=
  let st := evidence.foldl dedupeStep ⟨[], [], 0⟩
  let deduped := st.seen.map Prod.snd
  let withCredibility := deduped.map (fun item => { item with credibility := getCredibility item.url })
  let domains := (withCredibility.map (fun e => getDomain e.url)).dedup
  { evidence := withCredibility,
    uniqueDomains := domains.length,
    removedCount := st.removedCount }

/-! ### C3: the evidence-strength formula -/

/-- The evidence-strength formula as the spec states it, for comparison
with the source-derived `computeEvidenceStrength`: `floor(count/6)` capped
at 5, +1 for ≥ 5 distinct domains, +1 for ≥ 2 high-credibility records,
−1 when the low-credibility proportion exceeds 0.4 (stated here by
cross-multiplication), −1 when `count < 10`, clamped to `[0, 5]`. -/
def evidenceStrengthSpec (evidence : List EvidenceItem) : Int :=
  let count := evidence.length
  let base : Int := min ((count : Int) / 6) 5
  let uniqueDomains := ((evidence.map (fun e => getDomain e.url)).dedup).length
  let reviewSourceCount :=
    (evidence.filter (fun e => HIGH_CREDIBILITY_DOMAINS.contains (getDomain e.url))).length
  let lowCredCount := (evidence.filter (fun e => e.credibility ≤ 1)).length
  let raw := base
    + (if 5 ≤ uniqueDomains then 1 else 0)
    + (if 2 ≤ reviewSourceCount then 1 else 0)
    - (if 0 < count ∧ (0.4 : ℚ) * (count : ℚ) < (lowCredCount : ℚ) then 1 else 0)
    - (if count < 10 then 1 else 0)
  min (max raw 0) 5

/-- C3: `computeEvidenceStrength` computes exactly the spec's formula,
and on the empty evidence list it is exactly 0. -/
theorem computeEvidenceStrength_matches_spec :
    (∀ evidence : List EvidenceItem,
        computeEvidenceStrength evidence = evidenceStrengthSpec evidence) ∧
    computeEvidenceStrength [] = 0 := by
  refine ⟨fun evidence => ?_, by norm_num [computeEvidenceStrength]⟩
  have hratio :
      ((if 0 < evidence.length then
          ((evidence.filter (fun e => e.credibility ≤ 1)).length : ℚ) / (evidence.length : ℚ)
        else 0) > (0.4 : ℚ)) ↔
      (0 < evidence.length ∧
        (0.4 : ℚ) * (evidence.length : ℚ) <
          ((evidence.filter (fun e => e.credibility ≤ 1)).length : ℚ)) := by
    by_cases hc : 0 < evidence.length
    · have hc' : (0 : ℚ) < (evidence.length : ℚ) := by exact_mod_cast hc
      simp only [hc, if_pos, true_and]
      exact lt_div_iff₀ hc'
    · simp [hc]
      norm_num
  simp only [computeEvidenceStrength, evidenceStrengthSpec, gt_iff_lt] at hratio ⊢
  simp only [hratio]
  split_ifs <;> omega

/-! ### C8: credibility lookup -/

/-- Every entry of the tier table lies in `[1, 5]`. -/
theorem tierLookup_bounds (host : String) (t : Int)
    (h : tierLookup host = some t) : 1 ≤ t ∧ t ≤ 5 := by
  unfold tierLookup at h
  rcases hf : CREDIBILITY_TIERS.find? (fun p => p.1 = host) with _ | p
  · rw [hf] at h; exact absurd h (by simp)
  · rw [hf] at h
    have hmem := List.mem_of_find?_eq_some hf
    have : ∀ q ∈ CREDIBILITY_TIERS, 1 ≤ q.2 ∧ q.2 ≤ 5 := by decide
    have hb := this p hmem
    simp only [Option.some.injEq] at h
    omega

/-- C8: `getCredibility` always yields a tier in `[1, 5]`, returns the
default 2 on unparseable URLs, and takes the documented values on the
spec's scenarios (exact table hit behind `www.`, parent-domain fallback
for a subdomain, the two listicle patterns, and the unknown-domain
default). -/
theorem getCredibility_spec :
    (∀ url : String, 1 ≤ getCredibility url ∧ getCredibility url ≤ 5) ∧
    (∀ url : String, parseURL url = none → getCredibility url = 2) ∧
    getCredibility "https://www.g2.com/products/test" = 5 ∧
    getCredibility "https://old.g2.com/products/test" = 5 ∧
    getCredibility "https://somesite.com/best-crm-tools" = 1 ∧
    getCredibility "https://somesite.com/top-10-tools" = 1 ∧
    getCredibility "https://random-blog.io/article" = 2 := by
  refine ⟨fun url => ?_, fun url h => ?_, by decide, by decide, by decide, by decide, by decide⟩
  · simp only [getCredibility]
    split
    · norm_num
    · rename_i u _
      split
      · rename_i t ht
        exact tierLookup_bounds _ _ ht
      · rename_i hnone
        split
        · rename_i t2 ht2
          by_cases hlen : (splitDot (stripWww u.hostname).data).length > 2
          · rw [if_pos hlen] at ht2
            exact tierLookup_bounds _ _ ht2
          · rw [if_neg hlen] at ht2
            cases ht2
        · split <;> norm_num
  · simp [getCredibility, h]

/-- Witness for C8 at a concrete unparseable URL: the default tier 2. -/
theorem getCredibility_spec_witness :
    parseURL "not a url" = none ∧ getCredibility "not a url" = 2 :=
  ⟨by decide, getCredibility_spec.2.1 "not a url" (by decide)⟩

/-! ### Association-list lemmas for the `seen` map -/

theorem assocGet_eq_none_of_not_mem (m : List (String × EvidenceItem)) (k : String)
    (h : k ∉ m.map Prod.fst) : assocGet m k = none := by
  induction m with
  | nil => rfl
  | cons p rest ih =>
    simp only [List.map_cons, List.mem_cons] at h
    push_neg at h
    simp only [assocGet, ih h.2]
    rw [if_neg (fun hh => h.1 hh.symm)]

theorem mem_map_fst_of_assocGet_some (m : List (String × EvidenceItem)) (k : String)
    (v : EvidenceItem) (h : assocGet m k = some v) : k ∈ m.map Prod.fst := by
  induction m with
  | nil => cases h
  | cons p rest ih =>
    simp only [assocGet] at h
    by_cases hk : p.1 = k
    · simp [hk]
    · rw [if_neg hk] at h
      simp [ih h]

theorem assocSet_of_get_none (m : List (String × EvidenceItem)) (k : String)
    (v : EvidenceItem) (h : assocGet m k = none) : assocSet m k v = m ++ [(k, v)] := by
  induction m with
  | nil => rfl
  | cons p rest ih =>
    simp only [assocGet] at h
    by_cases hk : p.1 = k
    · rw [if_pos hk] at h; cases h
    · rw [if_neg hk] at h
      simp only [assocSet, if_neg hk, List.cons_append, ih h]

theorem assocSet_length_of_get_some (m : List (String × EvidenceItem)) (k : String)
    (v ex : EvidenceItem) (h : assocGet m k = some ex) :
    (assocSet m k v).length = m.length := by
  induction m with
  | nil => cases h
  | cons p rest ih =>
    simp only [assocGet] at h
    by_cases hk : p.1 = k
    · simp [assocSet, hk]
    · rw [if_neg hk] at h
      simp only [assocSet, if_neg hk, List.length_cons, ih h]

theorem assocSet_map_fst_of_get_some (m : List (String × EvidenceItem)) (k : String)
    (v ex : EvidenceItem) (h : assocGet m k = some ex) :
    (assocSet m k v).map Prod.fst = m.map Prod.fst := by
  induction m with
  | nil => cases h
  | cons p rest ih =>
    simp only [assocGet] at h
    by_cases hk : p.1 = k
    · simp [assocSet, hk]
    · rw [if_neg hk] at h
      simp only [assocSet, if_neg hk, List.map_cons, ih h]

/-- Replacing the entry for a present key: together with the replaced
value, the new value list is a permutation of the old one extended by the
new value. -/
theorem assocSet_map_snd_perm (m : List (String × EvidenceItem)) (k : String)
    (v ex : EvidenceItem) (h : assocGet m k = some ex) :
    ((assocSet m k v).map Prod.snd ++ [ex]).Perm (m.map Prod.snd ++ [v]) := by
  induction m with
  | nil => cases h
  | cons p rest ih =>
    simp only [assocGet] at h
    by_cases hk : p.1 = k
    · rw [if_pos hk] at h
      simp only [Option.some.injEq] at h
      subst h
      simp only [assocSet, if_pos hk, List.map_cons, List.cons_append]
      have h1 : (v :: (List.map Prod.snd rest ++ [p.2])).Perm
          (v :: p.2 :: List.map Prod.snd rest) :=
        List.Perm.cons v (List.perm_append_singleton p.2 (List.map Prod.snd rest))
      have h2 : (v :: p.2 :: List.map Prod.snd rest).Perm
          (p.2 :: v :: List.map Prod.snd rest) :=
        List.Perm.swap p.2 v (List.map Prod.snd rest)
      have h3 : (p.2 :: v :: List.map Prod.snd rest).Perm
          (p.2 :: (List.map Prod.snd rest ++ [v])) :=
        List.Perm.cons p.2 (List.perm_append_singleton v (List.map Prod.snd rest)).symm
      exact (h1.trans h2).trans h3
    · rw [if_neg hk] at h
      have hperm := List.Perm.cons p.2 (ih h)
      simp only [assocSet, if_neg hk, List.map_cons, List.cons_append]
      exact hperm

/-! ### C10: record conservation -/

theorem dedupeStep_count (st : DedupeState) (item : EvidenceItem) :
    (dedupeStep st item).seen.length + (dedupeStep st item).removedCount
      = st.seen.length + st.removedCount + 1 := by
  unfold dedupeStep
  by_cases hq : normalizeQuote item.quote ∈ st.seenQuotes
  · simp [hq]
    omega
  · rw [if_neg hq]
    rcases hg : assocGet st.seen (normalizeUrl item.url) with _ | ex
    · simp only []
      rw [assocSet_of_get_none _ _ _ hg]
      simp
      omega
    · simp only []
      split_ifs with hc
      · simp [assocSet_length_of_get_some _ _ _ _ hg]
        omega
      · simp
        omega

theorem foldl_dedupeStep_count (l : List EvidenceItem) :
    ∀ st : DedupeState,
      (l.foldl dedupeStep st).seen.length + (l.foldl dedupeStep st).removedCount
        = st.seen.length + st.removedCount + l.length := by
  induction l with
  | nil => intro st; simp
  | cons item rest ih =>
    intro st
    simp only [List.foldl_cons, List.length_cons]
    rw [ih (dedupeStep st item)]
    have := dedupeStep_count st item
    omega

/-- C10: every input record is either kept (one surviving slot) or
counted as removed: output length plus `removedCount` equals the input
length. -/
theorem dedupeEvidence_conservation (evidence : List EvidenceItem) :
    (dedupeEvidence evidence).evidence.length + (dedupeEvidence evidence).removedCount
      = evidence.length := by
  simp only [dedupeEvidence, List.length_map]
  have := foldl_dedupeStep_count evidence ⟨[], [], 0⟩
  simpa using this

/-! ### C4: the dedup invariant -/

/-- Invariant of the `seen` map: its keys are pairwise distinct, and each
entry is stored under the normalized URL of its record. -/
def SeenInv (seen : List (String × EvidenceItem)) : Prop :=
  (seen.map Prod.fst).Nodup ∧ ∀ p ∈ seen, normalizeUrl p.2.url = p.1

theorem mem_assocSet (m : List (String × EvidenceItem)) (k : String)
    (v : EvidenceItem) (p : String × EvidenceItem) (h : p ∈ assocSet m k v) :
    p ∈ m ∨ p = (k, v) := by
  induction m with
  | nil =>
    simp only [assocSet, List.mem_singleton] at h
    exact Or.inr h
  | cons q rest ih =>
    simp only [assocSet] at h
    by_cases hk : q.1 = k
    · rw [if_pos hk] at h
      rcases List.mem_cons.1 h with h' | h'
      · exact Or.inr h'
      · exact Or.inl (List.mem_cons_of_mem q h')
    · rw [if_neg hk] at h
      rcases List.mem_cons.1 h with h' | h'
      · exact Or.inl (h' ▸ List.mem_cons_self q rest)
      · rcases ih h' with h'' | h''
        · exact Or.inl (List.mem_cons_of_mem q h'')
        · exact Or.inr h''

theorem assocGet_isSome_of_mem (m : List (String × EvidenceItem)) (k : String)
    (h : k ∈ m.map Prod.fst) : ∃ v, assocGet m k = some v := by
  induction m with
  | nil => simp at h
  | cons q rest ih =>
    by_cases hk : q.1 = k
    · exact ⟨q.2, by simp [assocGet, hk]⟩
    · simp only [List.map_cons, List.mem_cons] at h
      rcases h with h | h
      · exact absurd h.symm hk
      · obtain ⟨v, hv⟩ := ih h
        exact ⟨v, by simp [assocGet, hk, hv]⟩

theorem dedupeStep_seen_inv (st : DedupeState) (item : EvidenceItem)
    (h : SeenInv st.seen) : SeenInv (dedupeStep st item).seen := by
  unfold dedupeStep
  by_cases hq : normalizeQuote item.quote ∈ st.seenQuotes
  · simpa [hq] using h
  · rw [if_neg hq]
    rcases hg : assocGet st.seen (normalizeUrl item.url) with _ | ex
    · simp only []
      rw [assocSet_of_get_none _ _ _ hg]
      have hnot : normalizeUrl item.url ∉ st.seen.map Prod.fst := by
        intro hmem
        obtain ⟨v, hv⟩ := assocGet_isSome_of_mem _ _ hmem
        rw [hg] at hv
        cases hv
      constructor
      · simpa [List.nodup_append] using
          ⟨h.1, fun x hx => hnot (List.mem_map_of_mem Prod.fst hx)⟩
      · intro p hp
        rcases List.mem_append.1 hp with hm | hm
        · exact h.2 p hm
        · simp only [List.mem_singleton] at hm
          subst hm
          rfl
    · simp only []
      split_ifs with hc
      · constructor
        · rw [assocSet_map_fst_of_get_some _ _ _ _ hg]
          exact h.1
        · intro p hp
          rcases mem_assocSet _ _ _ _ hp with hm | he
          · exact h.2 p hm
          · subst he
            rfl
      · exact h

theorem foldl_seen_inv (l : List EvidenceItem) :
    ∀ st : DedupeState, SeenInv st.seen → SeenInv ((l.foldl dedupeStep st).seen) := by
  induction l with
  | nil => intro st h; exact h
  | cons i rest ih =>
    intro st h
    exact ih (dedupeStep st i) (dedupeStep_seen_inv st i h)

/-- The normalized quotes of the kept records. -/
def quotesOf (seen : List (String × EvidenceItem)) : List String :=
  seen.map (fun p => normalizeQuote p.2.quote)

theorem dedupeStep_quotes_le (st : DedupeState) (item : EvidenceItem)
    (M : Multiset String)
    (h : (↑(quotesOf st.seen) : Multiset String) ≤ M) :
    (↑(quotesOf (dedupeStep st item).seen) : Multiset String)
      ≤ M + {normalizeQuote item.quote} := by
  unfold dedupeStep
  by_cases hq : normalizeQuote item.quote ∈ st.seenQuotes
  · simp only [if_pos hq]
    exact le_trans h (Multiset.le_add_right M _)
  · rw [if_neg hq]
    rcases hg : assocGet st.seen (normalizeUrl item.url) with _ | ex
    · simp only []
      rw [assocSet_of_get_none _ _ _ hg]
      have : quotesOf (st.seen ++ [(normalizeUrl item.url, item)])
          = quotesOf st.seen ++ [normalizeQuote item.quote] := by
        simp [quotesOf]
      rw [this]
      rw [← Multiset.coe_add] at *
      calc (↑(quotesOf st.seen ++ [normalizeQuote item.quote]) : Multiset String)
          = ↑(quotesOf st.seen) + ↑[normalizeQuote item.quote] := by
            rw [Multiset.coe_add]
        _ ≤ M + ↑[normalizeQuote item.quote] := add_le_add_right h _
        _ = M + {normalizeQuote item.quote} := by simp
    · simp only []
      have hperm := (assocSet_map_snd_perm st.seen (normalizeUrl item.url) item ex hg).map
        (fun e => normalizeQuote e.quote)
      have hperm' : (quotesOf (assocSet st.seen (normalizeUrl item.url) item)
            ++ [normalizeQuote ex.quote]).Perm
          (quotesOf st.seen ++ [normalizeQuote item.quote]) := by
        simpa [quotesOf, List.map_map, Function.comp] using hperm
      have heq : (↑(quotesOf (assocSet st.seen (normalizeUrl item.url) item)) : Multiset String)
            + {normalizeQuote ex.quote}
          = ↑(quotesOf st.seen) + {normalizeQuote item.quote} := by
        rw [← Multiset.coe_singleton (normalizeQuote ex.quote),
            ← Multiset.coe_singleton (normalizeQuote item.quote),
            Multiset.coe_add, Multiset.coe_add]
        exact Multiset.coe_eq_coe.2 hperm'
      have hle : (↑(quotesOf (assocSet st.seen (normalizeUrl item.url) item)) : Multiset String)
          ≤ ↑(quotesOf st.seen) + {normalizeQuote item.quote} := by
        rw [← heq]
        exact Multiset.le_add_right _ _
      split_ifs with hc
      · exact le_trans hle (add_le_add_right h _)
      · exact le_trans h (Multiset.le_add_right M _)

theorem foldl_quotes_le (l : List EvidenceItem) :
    ∀ (st : DedupeState) (M : Multiset String),
      (↑(quotesOf st.seen) : Multiset String) ≤ M →
      (↑(quotesOf ((l.foldl dedupeStep st).seen)) : Multiset String)
        ≤ M + ↑(l.map (fun i => normalizeQuote i.quote)) := by
  induction l with
  | nil => intro st M h; simpa using h
  | cons i rest ih =>
    intro st M h
    have h2 := ih (dedupeStep st i) (M + {normalizeQuote i.quote})
      (dedupeStep_quotes_le st i M h)
    simp only [List.foldl_cons, List.map_cons]
    rw [← Multiset.cons_coe, ← Multiset.singleton_add, ← add_assoc]
    exact h2

/-- The output's normalized quotes are the kept map's normalized quotes
(the credibility overwrite does not touch quotes). -/
theorem dedupe_evidence_quotes (l : List EvidenceItem) :
    (dedupeEvidence l).evidence.map (fun e => normalizeQuote e.quote)
      = quotesOf ((l.foldl dedupeStep ⟨[], [], 0⟩).seen) := by
  simp only [dedupeEvidence, List.map_map, quotesOf]
  rfl

/-- The output's normalized URLs are those of the kept map. -/
theorem dedupe_evidence_urls (l : List EvidenceItem) :
    (dedupeEvidence l).evidence.map (fun e => normalizeUrl e.url)
      = (l.foldl dedupeStep ⟨[], [], 0⟩).seen.map (fun p => normalizeUrl p.2.url) := by
  simp only [dedupeEvidence, List.map_map]
  rfl

theorem dedupe_urls_nodup (l : List EvidenceItem) :
    ((dedupeEvidence l).evidence.map (fun e => normalizeUrl e.url)).Nodup := by
  have hinv := foldl_seen_inv l ⟨[], [], 0⟩ ⟨List.nodup_nil, by simp⟩
  rw [dedupe_evidence_urls]
  have heq : (l.foldl dedupeStep ⟨[], [], 0⟩).seen.map (fun p => normalizeUrl p.2.url)
      = (l.foldl dedupeStep ⟨[], [], 0⟩).seen.map Prod.fst :=
    List.map_congr_left (fun p hp => hinv.2 p hp)
  rw [heq]
  exact hinv.1

theorem dedupe_quotes_nodup (l : List EvidenceItem)
    (h : (l.map (fun i => normalizeQuote i.quote)).Nodup) :
    ((dedupeEvidence l).evidence.map (fun e => normalizeQuote e.quote)).Nodup := by
  rw [dedupe_evidence_quotes]
  have h0 : (↑(quotesOf (⟨[], [], 0⟩ : DedupeState).seen) : Multiset String) ≤ 0 := by
    simp [quotesOf]
  have hle := foldl_quotes_le l ⟨[], [], 0⟩ 0 h0
  rw [zero_add] at hle
  have hnodup : Multiset.Nodup (↑(l.map (fun i => normalizeQuote i.quote)) : Multiset String) :=
    Multiset.coe_nodup.2 h
  exact Multiset.coe_nodup.1 (Multiset.nodup_of_le hle hnodup)

/-- C4 (amended): no two output records share a normalized URL, for every
input; and no two output records share a normalized quote provided the
input's normalized quotes are pairwise distinct.  (When a URL collision
replaces a kept record, the replacement's quote is not registered, so for
general inputs two surviving records can share a normalized quote — see
the counterexample.) -/
theorem dedupeEvidence_dedup_invariant_amended :
    (∀ l : List EvidenceItem,
        ((dedupeEvidence l).evidence.map (fun e => normalizeUrl e.url)).Nodup) ∧
    (∀ l : List EvidenceItem,
        (l.map (fun i => normalizeQuote i.quote)).Nodup →
        ((dedupeEvidence l).evidence.map (fun e => normalizeQuote e.quote)).Nodup) :=
  ⟨dedupe_urls_nodup, dedupe_quotes_nodup⟩

/-- C4 counterexample: a record that replaces a kept record (same
normalized URL, higher credibility) never registers its quote, so a later
record with the same normalized quote also survives: the output quotes
are `["zz", "zz"]`, refuting the claimed quote-dedup invariant. -/
theorem dedupeEvidence_quote_invariant_counterexample :
    ¬ ((dedupeEvidence
        [⟨"https://a.com/p", "review", "x", "pain", "negative", 1, [], []⟩,
         ⟨"https://a.com/p", "review", "zz", "pain", "negative", 2, [], []⟩,
         ⟨"https://b.com/p", "review", "zz", "pain", "negative", 1, [], []⟩]).evidence.map
        (fun e => normalizeQuote e.quote)).Nodup := by decide

/-- Witness for C4 (amended), second part at a concrete input with
distinct quotes. -/
theorem dedupeEvidence_dedup_invariant_amended_witness :
    ((dedupeEvidence
        [⟨"https://a.com/p", "review", "q one", "pain", "negative", 3, [], []⟩,
         ⟨"https://b.com/p", "review", "q two", "pain", "negative", 3, [], []⟩]).evidence.map
        (fun e => normalizeQuote e.quote)).Nodup :=
  dedupeEvidence_dedup_invariant_amended.2
    [⟨"https://a.com/p", "review", "q one", "pain", "negative", 3, [], []⟩,
     ⟨"https://b.com/p", "review", "q two", "pain", "negative", 3, [], []⟩] (by decide)

/-! ### C5: the URL-collision comparator -/

/-- C5 (amended): on a same-normalized-URL collision where the quote is
fresh, the new record replaces the kept one exactly when it has strictly
higher credibility OR a strictly longer quote — a plain disjunction, so a
lower-credibility record with a longer quote does replace (see the
counterexample for the claim's original lexicographic reading); either
way the collision increments `removedCount` by one and registers no new
quote. -/
theorem dedupeStep_url_collision
    (st : DedupeState) (item existing : EvidenceItem)
    (hq : normalizeQuote item.quote ∉ st.seenQuotes)
    (hg : assocGet st.seen (normalizeUrl item.url) = some existing) :
    ((existing.credibility < item.credibility ∨ existing.quote.length < item.quote.length) →
        (dedupeStep st item).seen = assocSet st.seen (normalizeUrl item.url) item) ∧
    (¬ (existing.credibility < item.credibility ∨ existing.quote.length < item.quote.length) →
        (dedupeStep st item).seen = st.seen) ∧
    (dedupeStep st item).removedCount = st.removedCount + 1 ∧
    (dedupeStep st item).seenQuotes = st.seenQuotes := by
  unfold dedupeStep
  rw [if_neg hq, hg]
  by_cases hc : existing.credibility < item.credibility ∨ existing.quote.length < item.quote.length <;>
    simp [hc]

/-- Concrete items for the C5 scenario: the kept record has credibility 5
and a short quote; the incoming record for the same URL has credibility 1
and a longer quote. -/
def keptItem5 : EvidenceItem :=
  ⟨"https://a.com/p", "review", "q", "pain", "negative", 5, [], []⟩

/-- The incoming lower-credibility, longer-quote record. -/
def newItem5 : EvidenceItem :=
  ⟨"https://a.com/p", "review", "longer quote q", "pain", "negative", 1, [], []⟩

/-- The state holding `keptItem5` under its normalized URL. -/
def collisionState5 : DedupeState :=
  ⟨[("https://a.com/p", keptItem5)], ["x"], 0⟩

/-- C5 counterexample: the incoming record has strictly lower credibility
(1 < 5) than the kept one, yet it replaces it because its quote is
longer — refuting "a new record with strictly lower credibility never
replaces it". -/
theorem dedupeStep_lower_credibility_replaces :
    (dedupeStep collisionState5 newItem5).seen = [("https://a.com/p", newItem5)] ∧
    newItem5.credibility < keptItem5.credibility := by decide

/-- Witness for C5 (amended) at the concrete collision. -/
theorem dedupeStep_url_collision_witness :
    ((keptItem5.credibility < newItem5.credibility ∨
        keptItem5.quote.length < newItem5.quote.length) →
      (dedupeStep collisionState5 newItem5).seen
        = assocSet collisionState5.seen (normalizeUrl newItem5.url) newItem5) ∧
    (¬ (keptItem5.credibility < newItem5.credibility ∨
        keptItem5.quote.length < newItem5.quote.length) →
      (dedupeStep collisionState5 newItem5).seen = collisionState5.seen) ∧
    (dedupeStep collisionState5 newItem5).removedCount
      = collisionState5.removedCount + 1 ∧
    (dedupeStep collisionState5 newItem5).seenQuotes = collisionState5.seenQuotes :=
  dedupeStep_url_collision collisionState5 newItem5 keptItem5 (by decide) (by decide)

/-! ### C6: URL normalization and the `www.` label -/

/-- C6 counterexample: two records whose URLs differ only by a leading
`www.` both survive consolidation (the claim says at most one would),
because `normalizeUrl` — unlike `getDomain` — does not strip `www.`. -/
theorem dedupeEvidence_www_counterexample :
    ¬ ((dedupeEvidence
        [⟨"https://www.a.com/p", "review", "first quote", "pain", "negative", 3, [], []⟩,
         ⟨"https://a.com/p", "review", "second quote", "pain", "negative", 3, [], []⟩]).evidence.length
      ≤ 1) := by decide

/-- `Char.toLower` maps only `'/'` to `'/'` (it only moves `A`–`Z`). -/
theorem toLower_ne_slash (c : Char) (h : c ≠ '/') : c.toLower ≠ '/' := by
  simp only [Char.toLower]
  split_ifs with hc
  · rcases hc with ⟨h1, h2⟩
    generalize hn : c.toNat = n at h1 h2
    interval_cases n <;> decide
  · exact h

/-- Stripping trailing slashes from `A ++ P` only touches `P` when `A`
does not end in a slash. -/
theorem stripTrailing_append (A P : List Char) (h : A.getLast? ≠ some '/') :
    stripTrailing (A ++ P) = A ++ stripTrailing P := by
  unfold stripTrailing
  rw [List.reverse_append, List.dropWhile_append]
  have hA : A.reverse.dropWhile (fun c => c == '/') = A.reverse := by
    rcases hrev : A.reverse with _ | ⟨c, rest⟩
    · rfl
    · have hc : c ≠ '/' := by
        intro hceq
        apply h
        rw [← List.head?_reverse, hrev, hceq]
        rfl
      rw [List.dropWhile_cons]
      simp [hc]
  by_cases he : (P.reverse.dropWhile (fun c => c == '/')).isEmpty
  · have hp : P.reverse.dropWhile (fun c => c == '/') = [] := List.isEmpty_iff.mp he
    rw [if_pos he, hA, hp, List.reverse_reverse]
    simp
  · rw [if_neg he, List.reverse_append, List.reverse_reverse]

/-- A parsed URL's host is nonempty and slash-free (the parser reads it
with `takeWhile` up to the first `/`, `?` or `#`, and lower-casing cannot
introduce a slash). -/
theorem parseURL_hostname_facts (url : String) :
    ∀ p : URLParts, parseURL url = some p →
      p.hostname.data ≠ [] ∧ ∀ c ∈ p.hostname.data, c ≠ '/' := by
  unfold parseURL
  split
  · intro p hp
    cases hp
  · rename_i scheme after heq
    split
    · rename_i hv
      dsimp only
      split
      · rename_i hemp
        intro p hp
        cases hp
      · rename_i hemp
        intro p hp
        have hpeq := Option.some.inj hp
        have hhost : p.hostname
            = String.mk (lowerChars
                (after.takeWhile (fun c => c != '/' && c != '?' && c != '#'))) := by
          rw [← hpeq]
        have hl : after.takeWhile (fun c => c != '/' && c != '?' && c != '#') ≠ [] :=
          fun hh => hemp (List.isEmpty_iff.mpr hh)
        constructor
        · rw [hhost]
          intro hx
          exact hl (by simpa [lowerChars] using hx)
        · intro c hc
          rw [hhost] at hc
          obtain ⟨a, ha, hrfl⟩ := List.exists_of_mem_map hc
          have hpred := List.mem_takeWhile_imp ha
          have hane : a ≠ '/' := by
            intro hae
            rw [hae] at hpred
            simp at hpred
          rw [← hrfl]
          exact toLower_ne_slash a hane
    · intro p hp
      cases hp

/-- On a parsed URL, `normalizeUrl` is the lower-cased
`protocol//hostname` followed by the trailing-slash-stripped pathname
(stripping never reaches into the host, which is nonempty and
slash-free). -/
theorem normalizeUrl_of_parse (u : String) (p : URLParts)
    (hp : parseURL u = some p) :
    normalizeUrl u = String.mk (lowerChars
      ((p.protocol.data ++ ['/', '/'] ++ p.hostname.data)
        ++ stripTrailing p.pathname.data)) := by
  obtain ⟨hne, hslash⟩ := parseURL_hostname_facts u p hp
  unfold normalizeUrl
  rw [hp]
  show String.mk (lowerChars (stripTrailing
      (p.protocol.data ++ ['/', '/'] ++ p.hostname.data ++ p.pathname.data))) = _
  congr 1
  have hlast : ((p.protocol.data ++ ['/', '/']) ++ p.hostname.data).getLast? ≠ some '/' := by
    rw [List.getLast?_append]
    rcases hhl : p.hostname.data.getLast? with _ | a
    · exact absurd (List.getLast?_eq_none_iff.mp hhl) hne
    · have ha : a ∈ p.hostname.data := List.mem_of_getLast?_eq_some hhl
      rw [Option.or_some]
      intro hcontra
      exact hslash a ha (by simpa using hcontra)
  rw [stripTrailing_append _ _ hlast]

/-- C6 (amended): for parseable URLs, the normalized URL depends only on
the parsed scheme, host, and the pathname up to letter case and trailing
slashes — so two URLs that both parse and differ only by letter case,
trailing slashes on the path, or query string and fragment normalize
identically; normalization does **not** strip a leading `www.` host
label: the `www.` pair normalizes to different strings and both records
survive consolidation. -/
theorem normalizeUrl_identifications :
    (∀ (u1 u2 : String) (p1 p2 : URLParts),
        parseURL u1 = some p1 → parseURL u2 = some p2 →
        p1.protocol = p2.protocol → p1.hostname = p2.hostname →
        lowerChars (stripTrailing p1.pathname.data)
          = lowerChars (stripTrailing p2.pathname.data) →
        normalizeUrl u1 = normalizeUrl u2) ∧
    normalizeUrl "https://Example.com/Page/" = normalizeUrl "https://example.com/page" ∧
    normalizeUrl "https://a.com/p?x=1#f" = normalizeUrl "https://a.com/p" ∧
    normalizeUrl "https://a.com/p///" = normalizeUrl "https://a.com/p" ∧
    normalizeUrl "https://www.a.com/p" ≠ normalizeUrl "https://a.com/p" ∧
    (dedupeEvidence
        [⟨"https://www.a.com/p", "review", "first quote", "pain", "negative", 3, [], []⟩,
         ⟨"https://a.com/p", "review", "second quote", "pain", "negative", 3, [], []⟩]).evidence.length
      = 2 := by
  refine ⟨fun u1 u2 p1 p2 h1 h2 hproto hhost hpath => ?_,
    by decide, by decide, by decide, by decide, by decide⟩
  rw [normalizeUrl_of_parse u1 p1 h1, normalizeUrl_of_parse u2 p2 h2, hproto, hhost]
  congr 1
  simp only [lowerChars, List.map_append] at hpath ⊢
  rw [hpath]

/-- Witness for C6 (amended) at a concrete pair differing by case, a
trailing slash, and a query-fragment suffix. -/
theorem normalizeUrl_identifications_witness :
    normalizeUrl "HTTPS://A.com/Path/?q=1#frag" = normalizeUrl "https://a.com/path" :=
  normalizeUrl_identifications.1 "HTTPS://A.com/Path/?q=1#frag" "https://a.com/path"
    ⟨"https:", "a.com", "/Path/"⟩ ⟨"https:", "a.com", "/path"⟩
    (by decide) (by decide) (by decide) (by decide) (by decide)

/-! ### C7: idempotence of consolidation -/

/-- When every record's normalized URL and quote is fresh for the current
state and the records are pairwise fresh too, the loop keeps everything
and removes nothing. -/
theorem foldl_dedupeStep_all_fresh (l : List EvidenceItem) :
    ∀ st : DedupeState,
      (∀ i ∈ l, normalizeQuote i.quote ∉ st.seenQuotes) →
      (∀ i ∈ l, normalizeUrl i.url ∉ st.seen.map Prod.fst) →
      (l.map (fun i => normalizeUrl i.url)).Nodup →
      (l.map (fun i => normalizeQuote i.quote)).Nodup →
      l.foldl dedupeStep st =
        ⟨st.seen ++ l.map (fun i => (normalizeUrl i.url, i)),
         st.seenQuotes ++ l.map (fun i => normalizeQuote i.quote),
         st.removedCount⟩ := by
  induction l with
  | nil =>
    intro st _ _ _ _
    simp
  | cons i rest ih =>
    intro st hq hu hnu hnq
    have hqi : normalizeQuote i.quote ∉ st.seenQuotes := hq i (List.mem_cons_self i rest)
    have hui : normalizeUrl i.url ∉ st.seen.map Prod.fst := hu i (List.mem_cons_self i rest)
    have hget : assocGet st.seen (normalizeUrl i.url) = none :=
      assocGet_eq_none_of_not_mem _ _ hui
    have hstep : dedupeStep st i =
        ⟨st.seen ++ [(normalizeUrl i.url, i)],
         st.seenQuotes ++ [normalizeQuote i.quote],
         st.removedCount⟩ := by
      unfold dedupeStep
      rw [if_neg hqi, hget]
      simp only []
      rw [assocSet_of_get_none _ _ _ hget]
    simp only [List.map_cons] at hnu hnq
    have hnu' := hnu.of_cons
    have hnq' := hnq.of_cons
    have hiu : normalizeUrl i.url ∉ rest.map (fun j => normalizeUrl j.url) :=
      (List.nodup_cons.1 hnu).1
    have hiq : normalizeQuote i.quote ∉ rest.map (fun j => normalizeQuote j.quote) :=
      (List.nodup_cons.1 hnq).1
    have hrest := ih (dedupeStep st i)
      (by
        rw [hstep]
        intro j hj
        simp only [List.mem_append, List.mem_singleton]
        push_neg
        refine ⟨hq j (List.mem_cons_of_mem i hj), fun he => ?_⟩
        exact hiq (he ▸ List.mem_map_of_mem (fun j => normalizeQuote j.quote) hj))
      (by
        rw [hstep]
        intro j hj
        simp only [List.map_append, List.map_cons, List.map_nil,
          List.mem_append, List.mem_singleton]
        push_neg
        refine ⟨hu j (List.mem_cons_of_mem i hj), fun he => ?_⟩
        exact hiu (he ▸ List.mem_map_of_mem (fun j => normalizeUrl j.url) hj))
      hnu' hnq'
    rw [List.foldl_cons, hrest, hstep]
    simp [List.append_assoc]

/-- Every output record's credibility field is the code-computed one. -/
theorem dedupe_cred_fixed (l : List EvidenceItem) :
    ∀ e ∈ (dedupeEvidence l).evidence, e.credibility = getCredibility e.url := by
  intro e he
  simp only [dedupeEvidence, List.mem_map] at he
  obtain ⟨x, _, rfl⟩ := he
  rfl

/-- Overwriting the credibility with the value it already holds is the
identity. -/
theorem credibility_overwrite_self (e : EvidenceItem)
    (h : e.credibility = getCredibility e.url) :
    ({ e with credibility := getCredibility e.url } : EvidenceItem) = e := by
  cases e
  simp_all

/-- `uniqueDomains` is recomputable from the output records. -/
theorem dedupe_uniqueDomains_eq (l : List EvidenceItem) :
    (dedupeEvidence l).uniqueDomains
      = (((dedupeEvidence l).evidence).map (fun e => getDomain e.url)).dedup.length := by
  simp only [dedupeEvidence]

/-- C7 (amended): consolidation is idempotent on every input whose
consolidated output has pairwise-distinct normalized quotes — in
particular on every input with pairwise-distinct normalized quotes.  (For
general inputs a replacement can leave two output records with the same
normalized quote, and the second run then removes one — see the
counterexample.) -/
theorem dedupeEvidence_idempotent_amended (l : List EvidenceItem)
    (h : ((dedupeEvidence l).evidence.map (fun e => normalizeQuote e.quote)).Nodup) :
    dedupeEvidence ((dedupeEvidence l).evidence) =
      ⟨(dedupeEvidence l).evidence, (dedupeEvidence l).uniqueDomains, 0⟩ := by
  set out := (dedupeEvidence l).evidence with hout
  have hurl : (out.map (fun e => normalizeUrl e.url)).Nodup := by
    rw [hout]
    exact dedupe_urls_nodup l
  have hfold := foldl_dedupeStep_all_fresh out ⟨[], [], 0⟩ (by simp) (by simp) hurl h
  have hev : (dedupeEvidence out).evidence = out := by
    simp only [dedupeEvidence]
    rw [hfold]
    simp only [List.nil_append, List.map_map]
    have hfix : ∀ e ∈ out,
        ({ e with credibility := getCredibility e.url } : EvidenceItem) = e := by
      intro e he
      refine credibility_overwrite_self e ?_
      rw [hout] at he
      exact dedupe_cred_fixed l e he
    calc List.map
          ((fun item => { item with credibility := getCredibility item.url }) ∘
            Prod.snd ∘ fun i => (normalizeUrl i.url, i)) out
        = List.map id out := by
          apply List.map_congr_left
          intro e he
          simpa using hfix e he
      _ = out := List.map_id _
  have hrem : (dedupeEvidence out).removedCount = 0 := by
    simp only [dedupeEvidence]
    rw [hfold]
  have hdom : (dedupeEvidence out).uniqueDomains = (dedupeEvidence l).uniqueDomains := by
    rw [dedupe_uniqueDomains_eq out, hev, dedupe_uniqueDomains_eq l, ← hout]
  calc dedupeEvidence out
      = ⟨(dedupeEvidence out).evidence,
         (dedupeEvidence out).uniqueDomains,
         (dedupeEvidence out).removedCount⟩ := rfl
    _ = ⟨out, (dedupeEvidence l).uniqueDomains, 0⟩ := by
        rw [hev, hrem, hdom]

/-- C7 counterexample: after a replacement leaves two output records with
the same normalized quote, a second consolidation removes one of them
(`removedCount = 1` and a shorter record list), so consolidation is not
idempotent on all inputs. -/
theorem dedupeEvidence_not_idempotent :
    (dedupeEvidence ((dedupeEvidence
        [⟨"https://c.com/x", "review", "y", "pain", "negative", 1, [], []⟩,
         ⟨"https://c.com/x", "review", "ww", "pain", "negative", 2, [], []⟩,
         ⟨"https://d.com/x", "review", "ww", "pain", "negative", 1, [], []⟩]).evidence)).removedCount
      = 1 := by decide

/-- Witness for C7 (amended) at a concrete two-record input with distinct
quotes. -/
theorem dedupeEvidence_idempotent_amended_witness :
    dedupeEvidence ((dedupeEvidence
        [⟨"https://c.com/x", "review", "alpha", "pain", "negative", 3, [], []⟩,
         ⟨"https://d.com/x", "review", "beta", "pain", "negative", 3, [], []⟩]).evidence) =
      ⟨(dedupeEvidence
          [⟨"https://c.com/x", "review", "alpha", "pain", "negative", 3, [], []⟩,
           ⟨"https://d.com/x", "review", "beta", "pain", "negative", 3, [], []⟩]).evidence,
       (dedupeEvidence
          [⟨"https://c.com/x", "review", "alpha", "pain", "negative", 3, [], []⟩,
           ⟨"https://d.com/x", "review", "beta", "pain", "negative", 3, [], []⟩]).uniqueDomains,
       0⟩ :=
  dedupeEvidence_idempotent_amended
    [⟨"https://c.com/x", "review", "alpha", "pain", "negative", 3, [], []⟩,
     ⟨"https://d.com/x", "review", "beta", "pain", "negative", 3, [], []⟩] (by decide)

/-! ### C9: rubric-entry clamping and the total

`clampScore` (`run.ts` lines 325–328) takes a TypeScript `unknown`.  A
value is modelled by whether `typeof v === "number"` holds and, for
numbers, by its IEEE class: a finite double (an exact rational), `NaN`,
or `±Infinity`.  The rubric values reach `clampScore` from
`safeJsonParse` (`JSON.parse`), whose grammar has no `NaN` literal —
`NaN` is therefore not an externally suppliable input, while `±Infinity`
is (via overflowing numeric literals such as `1e999`) and is covered. -/

/-- A JavaScript number: finite (exact value as a rational), `NaN`, or an
infinity. -/
inductive JSNumber where
  | finite (x : ℚ)
  | nan
  | posInf
  | negInf
deriving DecidableEq, Repr

/-- A TypeScript `unknown` as `clampScore` classifies it: a number, or
anything else (`string`, `boolean`, `null`, `undefined`, object, array). -/
inductive JSValue where
  | number (n : JSNumber)
  | nonNumber
deriving DecidableEq, Repr

/-- `Math.round`: on finite doubles the ES spec rounds the exact value
half-up toward +∞; `NaN` and the infinities are fixed points. -/
def jsRound : JSNumber → JSNumber
  | JSNumber.finite x => JSNumber.finite ((⌊x + 1/2⌋ : ℤ) : ℚ)
  | n => n

/-- `Math.min` on two numbers: `NaN` propagates, otherwise the usual
order with `-Infinity` at the bottom. -/
def jsMin : JSNumber → JSNumber → JSNumber
  | JSNumber.nan, _ => JSNumber.nan
  | _, JSNumber.nan => JSNumber.nan
  | JSNumber.negInf, _ => JSNumber.negInf
  | _, JSNumber.negInf => JSNumber.negInf
  | JSNumber.posInf, b => b
  | a, JSNumber.posInf => a
  | JSNumber.finite x, JSNumber.finite y => JSNumber.finite (min x y)

/-- `Math.max` on two numbers: `NaN` propagates, `+Infinity` dominates. -/
def jsMax : JSNumber → JSNumber → JSNumber
  | JSNumber.nan, _ => JSNumber.nan
  | _, JSNumber.nan => JSNumber.nan
  | JSNumber.posInf, _ => JSNumber.posInf
  | _, JSNumber.posInf => JSNumber.posInf
  | JSNumber.negInf, b => b
  | a, JSNumber.negInf => a
  | JSNumber.finite x, JSNumber.finite y => JSNumber.finite (max x y)

/-- `clampScore` from `run.ts` (lines 325–328):
`Math.max(0, Math.min(5, Math.round(typeof value === "number" ? value : 0)))`
written with the source's intermediate `n`. -/
def clampScore (value : JSValue) : JSNumber :=
  let n : JSNumber :=
    match value with
    | JSValue.number m => m
    | JSValue.nonNumber => JSNumber.finite 0
  jsMax (JSNumber.finite 0) (jsMin (JSNumber.finite 5) (jsRound n))

/-- C9: for every externally suppliable value (every modelled value other
than the JSON-unreachable `NaN`), `clampScore` yields an integer in
`[0, 5]`, with non-numeric input coerced to 0; and `computeTotal` is the
arithmetic sum of the 8 dimensions and lies in `[0, 40]` whenever each
dimension is in `[0, 5]`. -/
theorem clampScore_computeTotal_bounds :
    (∀ v : JSValue, v ≠ JSValue.number JSNumber.nan →
        ∃ k : ℤ, clampScore v = JSNumber.finite (k : ℚ) ∧ 0 ≤ k ∧ k ≤ 5) ∧
    clampScore JSValue.nonNumber = JSNumber.finite 0 ∧
    (∀ (s : RubricScores) (es : Int),
        0 ≤ s.painIntensity → s.painIntensity ≤ 5 →
        0 ≤ s.frequency → s.frequency ≤ 5 →
        0 ≤ s.buyerClarity → s.buyerClarity ≤ 5 →
        0 ≤ s.budgetSignal → s.budgetSignal ≤ 5 →
        0 ≤ s.switchingCost → s.switchingCost ≤ 5 →
        0 ≤ s.competition → s.competition ≤ 5 →
        0 ≤ s.distributionFeasibility → s.distributionFeasibility ≤ 5 →
        0 ≤ es → es ≤ 5 →
        computeTotal s es =
          s.painIntensity + s.frequency + s.buyerClarity + s.budgetSignal +
            s.switchingCost + s.competition + s.distributionFeasibility + es ∧
        0 ≤ computeTotal s es ∧ computeTotal s es ≤ 40) := by
  refine ⟨fun v hv => ?_, ?_, fun s es h1 h2 h3 h4 h5 h6 h7 h8 h9 h10 h11 h12 h13 h14 h15 h16 => ?_⟩
  · rcases v with n | _
    · rcases n with x | _ | _ | _
      · refine ⟨max 0 (min 5 ⌊x + 1/2⌋), ?_, le_max_left 0 _, ?_⟩
        · simp only [clampScore, jsRound, jsMin, jsMax]
          congr 1
          push_cast
          rfl
        · have : min 5 ⌊x + 1/2⌋ ≤ 5 := min_le_left _ _
          omega
      · exact absurd rfl hv
      · exact ⟨5, by simp [clampScore, jsRound, jsMin, jsMax], by omega, by omega⟩
      · exact ⟨0, by simp [clampScore, jsRound, jsMin, jsMax], by omega, by omega⟩
    · refine ⟨0, ?_, by omega, by omega⟩
      simp only [clampScore, jsRound, jsMin, jsMax]
      norm_num
  · simp only [clampScore, jsRound, jsMin, jsMax]
    norm_num
  · refine ⟨rfl, ?_, ?_⟩ <;>
      simp only [computeTotal] <;> omega

/-- Witness for C9 at a fractional input (3.5 rounds up to 4 and stays in
range) and an all-3 rubric with evidence strength 4. -/
theorem clampScore_computeTotal_bounds_witness :
    (∃ k : ℤ, clampScore (JSValue.number (JSNumber.finite (7/2))) = JSNumber.finite (k : ℚ) ∧
        0 ≤ k ∧ k ≤ 5) ∧
    (computeTotal ⟨3, 3, 3, 3, 3, 3, 3⟩ 4 =
        (⟨3, 3, 3, 3, 3, 3, 3⟩ : RubricScores).painIntensity +
          (⟨3, 3, 3, 3, 3, 3, 3⟩ : RubricScores).frequency +
          (⟨3, 3, 3, 3, 3, 3, 3⟩ : RubricScores).buyerClarity +
          (⟨3, 3, 3, 3, 3, 3, 3⟩ : RubricScores).budgetSignal +
          (⟨3, 3, 3, 3, 3, 3, 3⟩ : RubricScores).switchingCost +
          (⟨3, 3, 3, 3, 3, 3, 3⟩ : RubricScores).competition +
          (⟨3, 3, 3, 3, 3, 3, 3⟩ : RubricScores).distributionFeasibility + 4 ∧
      0 ≤ computeTotal ⟨3, 3, 3, 3, 3, 3, 3⟩ 4 ∧ computeTotal ⟨3, 3, 3, 3, 3, 3, 3⟩ 4 ≤ 40) :=
  ⟨clampScore_computeTotal_bounds.1 (JSValue.number (JSNumber.finite (7/2))) (by simp),
   clampScore_computeTotal_bounds.2.2 ⟨3, 3, 3, 3, 3, 3, 3⟩ 4
     (by norm_num) (by norm_num) (by norm_num) (by norm_num) (by norm_num) (by norm_num)
     (by norm_num) (by norm_num) (by norm_num) (by norm_num) (by norm_num) (by norm_num)
     (by norm_num) (by norm_num) (by norm_num) (by norm_num)⟩

end IdeaVet
